import Mathlib

/-!
Shallow embedding of the dynamic DOM-builder variant of `src/ezui-client.js`
(the script that builds the whole page from `data.json` and supports
reorder / add / delete / rebuild), together with proofs about the claims
of the specification.

Modelling conventions:
* A JS component record becomes the structure `Component`; the JSON `null`
  parent sentinel becomes `none`.
* The unbounded JS recursions (`buildElement`, `findChildren` inside
  `deleteComponent`) are embedded with an explicit fuel argument; a fuel of
  `store.length` (resp. `store.length + 1`) is proved sufficient on acyclic
  stores, which are exactly the stores on which the JS recursion terminates.
* The DOM is embedded as the inductive tree `VisualElement`; `document`
  queries become structural traversals in document (preorder) order.
* JS truthiness tests (`component.elementType || 'div'`,
  `component.content && component.content[currentLang]`) are translated
  field by field, treating the empty string as falsy.
-/

namespace EzuiClient

/-- One component record from `data.json` (spec section 3, and the fields read
by `buildElement` in `src/ezui-client.js`). `parentId = none` encodes the JSON
`null` root sentinel; `order = none` encodes an absent `order` field;
`elementType = none` encodes an absent `elementType`. -/
structure Component where
  id : Int
  parentId : Option Int
  order : Option Int
  elementType : Option String
  content : List (String × String)
  styles : List (String × String)
  attributes : List (String × String)
  ezuiCms : String
deriving DecidableEq

/-- The sibling sort key: `a.order || 0` in the JS comparator, i.e. a missing
`order` counts as 0 (and a stored 0 stays 0, since `0 || 0 === 0`). -/
def orderKey (c : Component) : Int :=
  c.order.getD 0

/-- The sibling comparison `(a.order || 0) - (b.order || 0) ≤ 0` used by the
sort inside `buildElement`. -/
def sibLE (a b : Component) : Prop :=
  orderKey a ≤ orderKey b

instance : DecidableRel sibLE := fun a b =>
  inferInstanceAs (Decidable (orderKey a ≤ orderKey b))

instance : IsTotal Component sibLE :=
  ⟨fun a b => le_total (orderKey a) (orderKey b)⟩

instance : IsTrans Component sibLE :=
  ⟨fun _ _ _ => le_trans⟩

/-- The direct children of the record with id `pid`, as computed inside
`buildElement`: filter the flat store by `parentId === component.id`, then
sort by `(a.order || 0) - (b.order || 0)` with the array sort, which the
language specification requires to be stable. A stable sort's output is
uniquely determined by the comparator and the input order, so the embedding
may use any stable sort; insertion sort is used because it is structurally
recursive and therefore computable by the kernel. -/
def childrenOf (store : List Component) (pid : Int) : List Component :=
  (store.filter (fun c => c.parentId == some pid)).insertionSort sibLE

/-- The ids of the records whose `parentId` is `p`, in store order; this is
what one level of `findChildren` inside `deleteComponent` pushes. -/
def childIds (store : List Component) (p : Int) : List Int :=
  (store.filter (fun c => c.parentId == some p)).map (·.id)

/-- The recursive `findChildren` helper of `deleteComponent`, with explicit
fuel. For each child it records the child's id and recurses on it; the JS
original recurses unboundedly (and diverges on a parent cycle). -/
def findChildrenFuel (store : List Component) : Nat → Int → List Int
  | 0, _ => []
  | n + 1, p => (childIds store p).flatMap (fun c => c :: findChildrenFuel store n c)

/-- The `deleteComponent` operation on the store: collect `[id]` plus the
recursively found child ids, then keep exactly the records whose id is not
collected. Fuel `store.length` is sufficient on acyclic stores (proved
below), which are the stores on which the JS recursion terminates. -/
def deleteComponent (store : List Component) (i : Int) : List Component :=
  let idsToRemove := i :: findChildrenFuel store store.length i
  store.filter (fun c => !(idsToRemove.contains c.id))

/-- One parent-to-child step of the parent/child relation: `c` is the id of a
record of the store whose `parentId` is `p`. -/
def stepR (store : List Component) (p c : Int) : Prop :=
  ∃ r ∈ store, r.parentId = some p ∧ r.id = c

/-- Transitive descendant relation on ids, derived from `parentId` equality. -/
def Desc (store : List Component) (p c : Int) : Prop :=
  Relation.TransGen (stepR store) p c

/-- A store with no `parentId` cycle: no id is its own strict descendant. -/
def Acyclic (store : List Component) : Prop :=
  ∀ x : Int, ¬ Desc store x x

/-- A decidable sufficient condition for acyclicity: a rank function that
strictly increases from parent id to child id on every record of the store. -/
def rankOkB (store : List Component) (f : Int → Nat) : Bool :=
  store.all (fun r =>
    match r.parentId with
    | some p => decide (f p < f r.id)
    | none => true)

/-- The element tag chosen by `buildElement`: `component.elementType || 'div'`,
with the empty string falsy. -/
def tagOf (c : Component) : String :=
  match c.elementType with
  | some t => if t = "" then "div" else t
  | none => "div"

/-- The text a leaf element receives:
`component.content && component.content[currentLang]`, with a missing mapping
or an empty (falsy) string yielding no text. -/
def contentText (c : Component) (lang : String) : Option String :=
  match c.content.lookup lang with
  | some s => if s = "" then none else some s
  | none => none

/-- JS `el.style[key] = value` (and `el.setAttribute(key, value)`): overwrite
the binding for `k` if present, otherwise append it. -/
def setEntry (entries : List (String × String)) (k v : String) :
    List (String × String) :=
  if entries.any (fun kv => kv.1 == k) then
    entries.map (fun kv => if kv.1 == k then (k, v) else kv)
  else
    entries ++ [(k, v)]

/-- Applying a record's `styles` (or `attributes`) mapping entry by entry, in
mapping order, onto an element's current entries: last write wins. -/
def applyEntries (init entries : List (String × String)) :
    List (String × String) :=
  entries.foldl (fun acc kv => setEntry acc kv.1 kv.2) init

/-- A rendered element of the visual tree. Every element built by
`buildElement` carries its record's id (`data-id`) and CMS tag
(`data-ezui-cms`); `selected` models membership of the `ezui-selected`
class; `text` models the element's own text content (`none` = empty). -/
inductive VisualElement where
  | node (tag : String) (dataId : Int) (ezuiCms : String)
      (styles : List (String × String))
      (attributes : List (String × String))
      (text : Option String) (selected : Bool)
      (children : List VisualElement)

/-- The record id stamped on an element. -/
def VisualElement.dataId : VisualElement → Int
  | .node _ i _ _ _ _ _ _ => i

/-- The children of an element. -/
def VisualElement.children : VisualElement → List VisualElement
  | .node _ _ _ _ _ _ _ ch => ch

/-- The own text content of an element. -/
def VisualElement.text : VisualElement → Option String
  | .node _ _ _ _ _ t _ _ => t

/-- Replacing the text content of an element (used by `update-content`, which
sets `textContent` on an element that has no `data-id` descendant). -/
def VisualElement.setText (e : VisualElement) (t : Option String) : VisualElement :=
  match e with
  | .node tag i cms st att _ sel ch => .node tag i cms st att t sel ch

/-- Setting one style property on a live element (`update-style`). -/
def VisualElement.setStyle (e : VisualElement) (k v : String) : VisualElement :=
  match e with
  | .node tag i cms st att t sel ch => .node tag i cms (setEntry st k v) att t sel ch

/-- Setting or clearing the `ezui-selected` marker on an element. -/
def VisualElement.setSelected (e : VisualElement) (b : Bool) : VisualElement :=
  match e with
  | .node tag i cms st att t _ ch => .node tag i cms st att t b ch

/-- The `buildElement` function of `src/ezui-client.js`, with explicit fuel:
create the element, stamp `data-id` and `data-ezui-cms`, apply styles and
attributes in mapping order, resolve the sorted children, and either set the
localized text (no children) or build and append each child (children). A
`none` result means the fuel ran out, which on a cyclic store corresponds to
the divergence of the JS recursion. -/
def buildElement (store : List Component) (lang : String) :
    Nat → Component → Option VisualElement
  | 0, _ => none
  | n + 1, comp =>
    let children := childrenOf store comp.id
    some (.node (tagOf comp) comp.id comp.ezuiCms
      (applyEntries [] comp.styles) (applyEntries [] comp.attributes)
      (if children.isEmpty then contentText comp lang else none)
      false
      (if children.isEmpty then []
       else children.filterMap (buildElement store lang n)))

/-- The root record chosen by `buildDOM`:
`componentsData.components.find(c => c.parentId === null)`, i.e. the first
record in store order with the `null` parent sentinel. -/
def findRoot (store : List Component) : Option Component :=
  store.find? (fun c => c.parentId == none)

/-- The `buildDOM` function: clear the mount point, find the root record, and
rebuild the tree from it; `none` models an empty mount point (missing root:
log and render nothing). -/
def buildDOM (store : List Component) (lang : String) : Option VisualElement :=
  match findRoot store with
  | none => none
  | some r => buildElement store lang (store.length + 1) r

mutual

/-- The `data-id` stamps of a rendered tree, one per element, in document
(preorder) order. -/
def collectIds : VisualElement → List Int
  | .node _ i _ _ _ _ _ ch => i :: collectIdsList ch

/-- The `data-id` stamps of a forest, in document order. -/
def collectIdsList : List VisualElement → List Int
  | [] => []
  | c :: cs => collectIds c ++ collectIdsList cs

end

/-- The number of elements of a rendered tree; every element carries exactly
one `data-id` stamp. -/
def nodeCount (t : VisualElement) : Nat :=
  (collectIds t).length

mutual

/-- Apply `f` to the first element (in document order) whose `data-id` is `i`,
as `document.querySelector` followed by a mutation does; the Bool reports
whether a match was found. -/
def domUpdateFirst (i : Int) (f : VisualElement → VisualElement) :
    VisualElement → VisualElement × Bool
  | .node tag di cms st att tx sel ch =>
    if di = i then (f (.node tag di cms st att tx sel ch), true)
    else
      let r := domUpdateFirstList i f ch
      (.node tag di cms st att tx sel r.1, r.2)

/-- The forest version of `domUpdateFirst`: scan siblings left to right and
stop at the first subtree that contains a match. -/
def domUpdateFirstList (i : Int) (f : VisualElement → VisualElement) :
    List VisualElement → List VisualElement × Bool
  | [] => ([], false)
  | c :: cs =>
    let r := domUpdateFirst i f c
    if r.2 then (r.1 :: cs, true)
    else
      let rs := domUpdateFirstList i f cs
      (r.1 :: rs.1, rs.2)

end

mutual

/-- Remove the `ezui-selected` marker from every element, as
`document.querySelectorAll('.ezui-selected').forEach(...)` does. -/
def clearSelected : VisualElement → VisualElement
  | .node tag di cms st att tx _ ch =>
    .node tag di cms st att tx false (clearSelectedList ch)

/-- The forest version of `clearSelected`. -/
def clearSelectedList : List VisualElement → List VisualElement
  | [] => []
  | c :: cs => clearSelected c :: clearSelectedList cs

end

/-- The full application state of the page: the component record store
(`componentsData.components`), the language (`currentLang`), and the rendered
tree mounted under `#root` (`none` when nothing is rendered). -/
structure AppState where
  components : List Component
  language : String
  dom : Option VisualElement

/-- The payload of a host command, fusing the `type` discriminator with the
`data` fields of the protocol table (spec section 6). `unknown` stands for any
other `type` string, which the handler ignores. -/
inductive HostData where
  | updateContent (id : Int) (content : String)
  | updateStyle (id : Int) (styleKey value : String)
  | highlight (id : Int)
  | clearHighlight
  | reorder (id : Int) (newOrder : Int)
  | addComponent (comp : Component)
  | deleteComponent (id : Int)
  | rebuild (components : Option (List Component))
  | unknown (type : String)

/-- An inbound window message: its declared `source` tag and its payload. -/
structure HostMsg where
  source : String
  data : HostData

/-- JS `components.find(c => c.id === id)` followed by an in-place mutation of
the found record: rewrite the first record with the given id, leave the rest
untouched. -/
def updateFirstRecord (l : List Component) (i : Int) (f : Component → Component) :
    List Component :=
  match l with
  | [] => []
  | c :: cs => if c.id == i then f c :: cs else c :: updateFirstRecord cs i f

/-- The `updateContent` operation: find the element with the given `data-id`;
if it exists and has no `data-id` descendant (in a built tree every element
carries `data-id`, so: no children), set its text directly on the live
element. The record store is not touched. -/
def updateContentOp (s : AppState) (i : Int) (content : String) : AppState :=
  { s with dom := s.dom.map (fun t =>
      (domUpdateFirst i (fun el =>
        if el.children.isEmpty then el.setText (some content) else el) t).1) }

/-- The `updateStyle` operation: set one style property directly on the live
element; the record store is not touched. -/
def updateStyleOp (s : AppState) (i : Int) (k v : String) : AppState :=
  { s with dom := s.dom.map (fun t =>
      (domUpdateFirst i (fun el => el.setStyle k v) t).1) }

/-- The `highlightElement` operation: clear every selection marker, then mark
the element with the given `data-id` (if any) selected. -/
def highlightOp (s : AppState) (i : Int) : AppState :=
  { s with dom := s.dom.map (fun t =>
      (domUpdateFirst i (fun el => el.setSelected true) (clearSelected t)).1) }

/-- The `clearHighlight` operation: clear every selection marker. -/
def clearHighlightOp (s : AppState) : AppState :=
  { s with dom := s.dom.map clearSelected }

/-- The `reorderComponent` operation: if no record has the given id, return
immediately; otherwise set the record's `order` field and rebuild the tree. -/
def reorderOp (s : AppState) (i : Int) (newOrder : Int) : AppState :=
  match s.components.find? (fun c => c.id == i) with
  | none => s
  | some _ =>
    let comps := updateFirstRecord s.components i (fun c => { c with order := some newOrder })
    { s with components := comps, dom := buildDOM comps s.language }

/-- The `addComponent` operation: append the record verbatim, then rebuild. -/
def addComponentOp (s : AppState) (comp : Component) : AppState :=
  let comps := s.components ++ [comp]
  { s with components := comps, dom := buildDOM comps s.language }

/-- The `deleteComponent` operation on the state: remove the id's descendant
closure from the store, then rebuild. -/
def deleteComponentOp (s : AppState) (i : Int) : AppState :=
  let comps := deleteComponent s.components i
  { s with components := comps, dom := buildDOM comps s.language }

/-- The `rebuild` command: replace the whole store when a replacement list is
supplied (`if (data.components)`), then rebuild the tree unconditionally. -/
def rebuildOp (s : AppState) (payload : Option (List Component)) : AppState :=
  let comps := payload.getD s.components
  { s with components := comps, dom := buildDOM comps s.language }

/-- The dispatch of `handleMessage` over the command `type`. -/
def applyData (s : AppState) : HostData → AppState
  | .updateContent i c => updateContentOp s i c
  | .updateStyle i k v => updateStyleOp s i k v
  | .highlight i => highlightOp s i
  | .clearHighlight => clearHighlightOp s
  | .reorder i o => reorderOp s i o
  | .addComponent comp => addComponentOp s comp
  | .deleteComponent i => deleteComponentOp s i
  | .rebuild payload => rebuildOp s payload
  | .unknown _ => s

/-- The `handleMessage` entry point: a message whose `source` is not
`visual-editor` is ignored before any dispatch. -/
def handleMessage (s : AppState) (msg : HostMsg) : AppState :=
  if msg.source = "visual-editor" then applyData s msg.data else s

/-- Fold a list of inbound messages through the handler. -/
def runMessages (s : AppState) (msgs : List HostMsg) : AppState :=
  msgs.foldl handleMessage s

/-- An outbound page-to-host message; `elementsCount` and `language` are the
`ezui-ready` payload fields (`element-selected` is emitted on clicks only,
which are outside the message-protocol claims). -/
structure PageMsg where
  source : String
  type : String
  elementsCount : Option Nat
  language : Option String
deriving DecidableEq

/-- The `ezui-ready` notification posted by `enableEditMode`: its
`elementsCount` is `componentsData.components.length`. -/
def readyMessage (store : List Component) (lang : String) : PageMsg :=
  ⟨"ezui-cms", "ezui-ready", some store.length, some lang⟩

/-- The messages posted during `init`: `enableEditMode` runs (and posts the
ready notification) exactly when the page is embedded in an iframe. -/
def initTrace (embedded : Bool) (store : List Component) (lang : String) :
    List PageMsg :=
  if embedded then [readyMessage store lang] else []

/-- The messages posted while handling one host command: none. No branch of
`handleMessage` calls `postMessage` (the rebuild branch calls
`enableEditModeStyles`, whose body is empty). -/
def handlerTrace (_msg : HostMsg) : List PageMsg := []

/-- All messages a session posts: the init-time messages followed by the
messages posted while handling each inbound host command. -/
def sessionTrace (embedded : Bool) (store : List Component) (lang : String)
    (msgs : List HostMsg) : List PageMsg :=
  initTrace embedded store lang ++ msgs.flatMap handlerTrace

/-- How many `ezui-ready` notifications a trace contains. -/
def countReady (tr : List PageMsg) : Nat :=
  (tr.filter (fun m => m.type == "ezui-ready")).length

/-- The number of addressable (identity-stamped) elements in the rendered
tree. -/
def countStamped (dom : Option VisualElement) : Nat :=
  match dom with
  | none => 0
  | some t => nodeCount t

/-- A compact constructor for test records: id, parent, order, leaf content. -/
def mkComp (i : Int) (p : Option Int) (ord : Option Int)
    (txt : List (String × String) := []) : Component :=
  ⟨i, p, ord, none, txt, [], [], ""⟩

theorem mem_childIds {store : List Component} {p c : Int} :
    c ∈ childIds store p ↔ stepR store p c := by
  simp only [childIds, stepR, List.mem_map, List.mem_filter, beq_iff_eq]
  constructor
  · rintro ⟨r, ⟨hr, hp⟩, hid⟩
    exact ⟨r, hr, hp, hid⟩
  · rintro ⟨r, hr, hp, hid⟩
    exact ⟨r, ⟨hr, hp⟩, hid⟩

/-- Membership in the fuelled `findChildren` is the existence of a nonempty
parent-to-child chain of length at most the fuel. -/
theorem mem_findChildrenFuel {store : List Component} :
    ∀ {n : Nat} {p c : Int},
      c ∈ findChildrenFuel store n p ↔
        ∃ l : List Int, l.length + 1 ≤ n ∧ List.Chain (stepR store) p (l ++ [c]) := by
  intro n
  induction n with
  | zero => intro p c; simp [findChildrenFuel]
  | succ n ih =>
    intro p c
    simp only [findChildrenFuel, List.mem_flatMap, List.mem_cons]
    constructor
    · rintro ⟨m, hm, hc | hc⟩
      · subst hc
        exact ⟨[], by simp, by simpa [List.chain_cons] using mem_childIds.mp hm⟩
      · obtain ⟨l, hl, hch⟩ := ih.mp hc
        exact ⟨m :: l, by simpa using Nat.succ_le_succ hl,
          List.chain_cons.mpr ⟨mem_childIds.mp hm, hch⟩⟩
    · rintro ⟨l, hl, hch⟩
      match l with
      | [] =>
        rw [List.nil_append, List.chain_cons] at hch
        exact ⟨c, mem_childIds.mpr hch.1, Or.inl rfl⟩
      | m :: l' =>
        rw [List.cons_append, List.chain_cons] at hch
        refine ⟨m, mem_childIds.mpr hch.1, Or.inr (ih.mpr ⟨l', ?_, hch.2⟩)⟩
        simp at hl
        omega

theorem transGen_of_chain {R : Int → Int → Prop} :
    ∀ {l : List Int} {p c : Int},
      List.Chain R p (l ++ [c]) → Relation.TransGen R p c := by
  intro l
  induction l with
  | nil =>
    intro p c h
    rw [List.nil_append, List.chain_cons] at h
    exact Relation.TransGen.single h.1
  | cons m l ih =>
    intro p c h
    rw [List.cons_append, List.chain_cons] at h
    exact Relation.TransGen.head h.1 (ih h.2)

theorem exists_chain_of_transGen {R : Int → Int → Prop} {p c : Int}
    (h : Relation.TransGen R p c) : ∃ l : List Int, List.Chain R p (l ++ [c]) := by
  induction h with
  | single h1 => exact ⟨[], by simp [List.chain_cons, h1]⟩
  | @tail b c _ h2 ih =>
    obtain ⟨l, hl⟩ := ih
    refine ⟨l ++ [b], ?_⟩
    have : l ++ [b] ++ [c] = l ++ b :: [c] := by simp
    rw [this]
    exact List.chain_split.mpr ⟨hl, List.chain_cons.mpr ⟨h2, List.Chain.nil⟩⟩

/-- On an acyclic store every parent-to-child chain visits distinct ids. -/
theorem chain_nodup {store : List Component} (hacyc : Acyclic store) :
    ∀ {l : List Int} {p : Int}, List.Chain (stepR store) p l → l.Nodup := by
  intro l
  induction l with
  | nil => intro p _; exact List.nodup_nil
  | cons a t ih =>
    intro p h
    rw [List.chain_cons] at h
    refine List.nodup_cons.mpr ⟨?_, ih h.2⟩
    intro ha
    obtain ⟨s, u, rfl⟩ := List.append_of_mem ha
    exact hacyc a (transGen_of_chain (List.chain_split.mp h.2).1)

/-- Every id visited by a parent-to-child chain is the id of some record. -/
theorem chain_mem_ids {store : List Component} :
    ∀ {l : List Int} {p : Int}, List.Chain (stepR store) p l →
      ∀ x ∈ l, x ∈ store.map (·.id) := by
  intro l
  induction l with
  | nil => intro p _ x hx; cases hx
  | cons a t ih =>
    intro p h x hx
    rw [List.chain_cons] at h
    rcases List.mem_cons.mp hx with rfl | hx
    · obtain ⟨r, hr, _, hid⟩ := h.1
      exact List.mem_map.mpr ⟨r, hr, hid⟩
    · exact ih h.2 x hx

/-- On an acyclic store, fuel `store.length` is enough for `findChildren`:
membership then coincides with the transitive descendant relation. -/
theorem desc_iff_mem_findChildrenFuel {store : List Component}
    (hacyc : Acyclic store) {p c : Int} :
    Desc store p c ↔ c ∈ findChildrenFuel store store.length p := by
  rw [mem_findChildrenFuel]
  constructor
  · intro h
    obtain ⟨l, hl⟩ := exists_chain_of_transGen h
    have hnd : (l ++ [c]).Nodup := chain_nodup hacyc hl
    have hsub : (l ++ [c]) ⊆ store.map (·.id) := fun x hx => chain_mem_ids hl x hx
    have hle := (hnd.subperm hsub).length_le
    simp only [List.length_append, List.length_cons, List.length_nil,
      List.length_map] at hle
    exact ⟨l, by omega, hl⟩
  · rintro ⟨l, _, hl⟩
    exact transGen_of_chain hl

theorem stepR_rank {store : List Component} {f : Int → Nat}
    (h : rankOkB store f = true) {p c : Int} (hpc : stepR store p c) :
    f p < f c := by
  obtain ⟨r, hr, hpar, hid⟩ := hpc
  have hall := List.all_eq_true.mp h r hr
  rw [hpar] at hall
  subst hid
  simpa using hall

/-- A strictly increasing rank function certifies acyclicity; this gives a
decidable way to discharge `Acyclic` on concrete stores. -/
theorem acyclic_of_rank (store : List Component) (f : Int → Nat)
    (h : rankOkB store f = true) : Acyclic store := by
  intro x hx
  have key : ∀ {a b : Int}, Desc store a b → f a < f b := by
    intro a b hab
    induction hab with
    | single h1 => exact stepR_rank h h1
    | tail _ h2 ih => exact ih.trans (stepR_rank h h2)
  exact absurd (key hx) (lt_irrefl _)

/-- Claim C2: on an acyclic store, `deleteComponent(id)` removes exactly the
record with that id together with all of its transitive descendants under the
`parentId` relation, and no other record; the survivors keep their original
order (the result is a sublist of the store). -/
theorem claim2_deleteComponent_removes_exactly (store : List Component) (i : Int)
    (hacyc : Acyclic store) :
    List.Sublist (deleteComponent store i) store ∧
      ∀ r : Component, r ∈ deleteComponent store i ↔
        r ∈ store ∧ r.id ≠ i ∧ ¬ Desc store i r.id := by
  refine ⟨List.filter_sublist _, fun r => ?_⟩
  simp only [deleteComponent, List.mem_filter, Bool.not_eq_true', List.contains,
    List.elem_eq_mem, decide_eq_false_iff_not, List.mem_cons, not_or]
  rw [desc_iff_mem_findChildrenFuel hacyc]

/-- The store of the C2 example: root→A→B→C plus root→D. -/
def exStore : List Component :=
  [mkComp 0 none none, mkComp 1 (some 0) none, mkComp 2 (some 1) none,
   mkComp 3 (some 2) none, mkComp 4 (some 0) none]

/-- Witness for C2: on the example store root→A→B→C, root→D, deleting A (id 1)
leaves exactly root and D, and the theorem yields that D (id 4) is not a
descendant of A. -/
theorem claim2_witness :
    deleteComponent exStore 1 = [mkComp 0 none none, mkComp 4 (some 0) none] ∧
      ¬ Desc exStore 1 4 := by
  have h := claim2_deleteComponent_removes_exactly exStore 1
    (acyclic_of_rank exStore (fun x => x.toNat) (by decide))
  refine ⟨by decide, ?_⟩
  have hd := (h.2 (mkComp 4 (some 0) none)).mp (by decide)
  simpa using hd.2.2

/-- Stability of the sibling sort, in filter form: restricting the sorted list
to any single key value gives exactly the input's records with that key, in
input order. -/
theorem insertionSort_filter_key (l : List Component) (k : Int) :
    (l.insertionSort sibLE).filter (fun c => orderKey c == k)
      = l.filter (fun c => orderKey c == k) := by
  have hBpair : (l.filter (fun c => orderKey c == k)).Pairwise sibLE := by
    refine List.pairwise_of_forall_mem_list ?_
    intro a ha b hb
    have hka : orderKey a = k := beq_iff_eq.mp (List.mem_filter.mp ha).2
    have hkb : orderKey b = k := beq_iff_eq.mp (List.mem_filter.mp hb).2
    simp [sibLE, hka, hkb]
  have hsub : List.Sublist (l.filter (fun c => orderKey c == k))
      (l.insertionSort sibLE) :=
    List.sublist_insertionSort hBpair (List.filter_sublist l)
  have hsub2 : List.Sublist (l.filter (fun c => orderKey c == k))
      ((l.insertionSort sibLE).filter (fun c => orderKey c == k)) := by
    have h1 := hsub.filter (fun c => orderKey c == k)
    rwa [List.filter_filter, show (fun a => (orderKey a == k) && (orderKey a == k))
      = (fun a : Component => orderKey a == k) from funext fun a => by
        cases h : orderKey a == k <;> simp [h]] at h1
  have hperm : ((l.insertionSort sibLE).filter (fun c => orderKey c == k)).Perm
      (l.filter (fun c => orderKey c == k)) :=
    (List.perm_insertionSort sibLE l).filter _
  exact (hsub2.eq_of_length hperm.length_eq.symm).symm

/-- The store of the C1 example: three siblings of parent id 0, in store order
A (id 1, order 2), B (id 2, order 1), C (id 3, order 1). -/
def claim1Store : List Component :=
  [mkComp 1 (some 0) (some 2), mkComp 2 (some 0) (some 1), mkComp 3 (some 0) (some 1)]

/-- Claim C1: `buildElement` renders the direct children of a record sorted by
ascending `order` (missing `order` counting as 0), with ties resolved by
original store position (stable sort): the resolved child list is sorted, is a
permutation of the filtered store, agrees with the filtered store on every
single `order` key, and is what `buildElement` appends; on the example
siblings A (order 2, first), B (order 1, second), C (order 1, third) the
children render as B, C, A. -/
theorem claim1_children_sorted_stable (store : List Component) (comp : Component)
    (lang : String) (n : Nat) :
    (childrenOf store comp.id).Pairwise (fun a b => orderKey a ≤ orderKey b)
    ∧ (childrenOf store comp.id).Perm
        (store.filter (fun c => c.parentId == some comp.id))
    ∧ (∀ k : Int, (childrenOf store comp.id).filter (fun c => orderKey c == k)
        = (store.filter (fun c => c.parentId == some comp.id)).filter
            (fun c => orderKey c == k))
    ∧ (∀ t, buildElement store lang (n + 1) comp = some t →
        t.children = (childrenOf store comp.id).filterMap (buildElement store lang n))
    ∧ (childrenOf claim1Store 0).map (·.id) = [2, 3, 1] := by
  refine ⟨?_, ?_, ?_, ?_, by decide⟩
  · exact List.sorted_insertionSort sibLE _
  · exact List.perm_insertionSort sibLE _
  · intro k
    exact insertionSort_filter_key _ k
  · intro t ht
    simp only [buildElement] at ht
    cases ht
    by_cases h : (childrenOf store comp.id).isEmpty
    · simp [VisualElement.children, h, List.isEmpty_iff.mp h]
    · simp [VisualElement.children, h]

/-- Witness for C1: on the example store the rendered children of the parent
are exactly the built elements of B, C, A in that order. -/
theorem claim1_witness :
    (buildElement claim1Store "en" 2 (mkComp 0 none none)).map VisualElement.children
      = some ((childrenOf claim1Store 0).filterMap (buildElement claim1Store "en" 1)) := by
  cases h : buildElement claim1Store "en" 2 (mkComp 0 none none) with
  | none => exact absurd h (by simp [buildElement])
  | some t =>
    have := (claim1_children_sorted_stable claim1Store (mkComp 0 none none) "en" 1).2.2.2.1 t h
    simpa using this

/-- Claim C4: `buildElement` never sets text on a record that has a child in
the resolved tree, regardless of its own `content`; on a record with zero
children the text is exactly the (truthy) `content[currentLanguage]` entry,
so text is set only when that entry exists. -/
theorem claim4_content_only_on_leaves (store : List Component) (lang : String)
    (comp : Component) (n : Nat) :
    ∀ t, buildElement store lang (n + 1) comp = some t →
      (childrenOf store comp.id ≠ [] → t.text = none)
      ∧ (childrenOf store comp.id = [] → t.text = contentText comp lang) := by
  intro t ht
  simp only [buildElement] at ht
  cases ht
  constructor
  · intro h
    have hne : (childrenOf store comp.id).isEmpty = false := by
      cases hc : childrenOf store comp.id with
      | nil => exact absurd hc h
      | cons a l => simp
    simp [VisualElement.text, hne]
  · intro h
    simp [VisualElement.text, h]

/-- Witness for C4: on the example store the parent (which has children B, C,
A) renders no text even though it carries English content, while a fresh leaf
record with the same content renders it. -/
theorem claim4_witness :
    (buildElement claim1Store "en" 2 (mkComp 0 none none [("en", "hi")])).map
        VisualElement.text = some none
    ∧ (buildElement claim1Store "en" 1 (mkComp 9 (some 0) none [("en", "hi")])).map
        VisualElement.text = some (some "hi") := by
  constructor
  · cases h : buildElement claim1Store "en" 2 (mkComp 0 none none [("en", "hi")]) with
    | none => exact absurd h (by simp [buildElement])
    | some t =>
      have := ((claim4_content_only_on_leaves claim1Store "en"
        (mkComp 0 none none [("en", "hi")]) 1 t h).1 (by decide))
      simp [this]
  · cases h : buildElement claim1Store "en" 1 (mkComp 9 (some 0) none [("en", "hi")]) with
    | none => exact absurd h (by simp [buildElement])
    | some t =>
      have := ((claim4_content_only_on_leaves claim1Store "en"
        (mkComp 9 (some 0) none [("en", "hi")]) 0 t h).2 (by decide))
      simp [this]
      decide

/-- Claim C7: replaying `rebuild` with the store's own current record list is
idempotent: starting from a state whose tree is the one built from the store,
the handler leaves both the store and the visual tree identical. -/
theorem claim7_rebuild_roundtrip (comps : List Component) (lang : String)
    (dom : Option VisualElement) (hsync : dom = buildDOM comps lang) :
    handleMessage ⟨comps, lang, dom⟩ ⟨"visual-editor", .rebuild (some comps)⟩
      = ⟨comps, lang, dom⟩ := by
  subst hsync
  simp [handleMessage, applyData, rebuildOp]

/-- Witness for C7 on the concrete example store. -/
theorem claim7_witness :
    handleMessage ⟨exStore, "en", buildDOM exStore "en"⟩
        ⟨"visual-editor", .rebuild (some exStore)⟩
      = ⟨exStore, "en", buildDOM exStore "en"⟩ :=
  claim7_rebuild_roundtrip exStore "en" (buildDOM exStore "en") rfl

/-- Claim C8: a message whose `source` is not the expected host tag leads to
zero store mutations and zero visual changes: the state after handling it is
the state before. -/
theorem claim8_foreign_source_ignored (s : AppState) (msg : HostMsg)
    (h : msg.source ≠ "visual-editor") : handleMessage s msg = s := by
  simp [handleMessage, h]

/-- Witness for C8: a delete command with a wrong source tag is a no-op on a
concrete state. -/
theorem claim8_witness :
    handleMessage ⟨exStore, "en", buildDOM exStore "en"⟩
        ⟨"unexpected-frame", .deleteComponent 0⟩
      = ⟨exStore, "en", buildDOM exStore "en"⟩ :=
  claim8_foreign_source_ignored _ _ (by decide)

/-- A one-record store: a root leaf with English text. -/
def c5Store : List Component :=
  [mkComp 0 none none [("en", "hi")]]

/-- The in-sync state over `c5Store`. -/
def c5State : AppState :=
  ⟨c5Store, "en", buildDOM c5Store "en"⟩

/-- Counterexample to C5 as stated: `update-content` is a mutation operation,
yet it performs zero mutations of the Component Record Store — it only edits
the live tree (here the rendered text changes from `hi` to `bye` while the
store still carries `hi`). -/
theorem claim5_counterexample :
    (handleMessage c5State ⟨"visual-editor", .updateContent 0 "bye"⟩).components
        = c5State.components
    ∧ (handleMessage c5State ⟨"visual-editor", .updateContent 0 "bye"⟩).dom.map
          VisualElement.text
        ≠ c5State.dom.map VisualElement.text := by
  constructor
  · rfl
  · intro h
    simp [c5State, c5Store, handleMessage, applyData, updateContentOp, buildDOM,
      findRoot, List.find?, buildElement, childrenOf, mkComp, domUpdateFirst,
      VisualElement.setText, VisualElement.children, VisualElement.text,
      contentText] at h

/-- Claim C5, amended: `reorder` (when the target id exists), `add-component`,
`delete-component` and `rebuild` mutate the Component Record Store directly
and then trigger a full rebuild; the pure-DOM operations (`update-content`,
`update-style`, `highlight`, `clear-highlight`) leave the store unchanged,
mutating only the live tree, and do not rebuild. -/
theorem claim5_amended (s : AppState) :
    (∀ i c, (handleMessage s ⟨"visual-editor", .updateContent i c⟩).components
        = s.components)
    ∧ (∀ i k v, (handleMessage s ⟨"visual-editor", .updateStyle i k v⟩).components
        = s.components)
    ∧ (∀ i, (handleMessage s ⟨"visual-editor", .highlight i⟩).components
        = s.components)
    ∧ (handleMessage s ⟨"visual-editor", .clearHighlight⟩).components = s.components
    ∧ (∀ i o, (s.components.find? (fun c => c.id == i)).isSome →
        handleMessage s ⟨"visual-editor", .reorder i o⟩
          = { s with
              components := updateFirstRecord s.components i
                (fun c => { c with order := some o }),
              dom := buildDOM (updateFirstRecord s.components i
                (fun c => { c with order := some o })) s.language })
    ∧ (∀ comp, handleMessage s ⟨"visual-editor", .addComponent comp⟩
          = { s with components := s.components ++ [comp],
                     dom := buildDOM (s.components ++ [comp]) s.language })
    ∧ (∀ i, handleMessage s ⟨"visual-editor", .deleteComponent i⟩
          = { s with components := deleteComponent s.components i,
                     dom := buildDOM (deleteComponent s.components i) s.language })
    ∧ (∀ newComps, handleMessage s ⟨"visual-editor", .rebuild (some newComps)⟩
          = { s with components := newComps,
                     dom := buildDOM newComps s.language }) := by
  refine ⟨fun i c => rfl, fun i k v => rfl, fun i => rfl, rfl, ?_, fun comp => rfl,
    fun i => rfl, fun newComps => rfl⟩
  intro i o h
  obtain ⟨c, hc⟩ := Option.isSome_iff_exists.mp h
  simp [handleMessage, applyData, reorderOp, hc]

/-- Witness for the amended C5: on the concrete one-record state,
`update-content` leaves the store untouched and `reorder` of the existing root
rewrites the store and rebuilds. -/
theorem claim5_witness :
    (handleMessage c5State ⟨"visual-editor", .updateContent 0 "bye"⟩).components
        = c5State.components
    ∧ handleMessage c5State ⟨"visual-editor", .reorder 0 3⟩
        = { c5State with
            components := updateFirstRecord c5State.components 0
              (fun c => { c with order := some 3 }),
            dom := buildDOM (updateFirstRecord c5State.components 0
              (fun c => { c with order := some 3 })) c5State.language } :=
  ⟨(claim5_amended c5State).1 0 "bye",
    (claim5_amended c5State).2.2.2.2.1 0 3 (by decide)⟩

/-- Counterexample to C6 as stated: `reorder` does not unconditionally
rebuild. After an `update-content` the live tree disagrees with the store;
a `reorder` naming an absent id (99) then returns before calling `buildDOM`,
leaving the stale tree in place, so the state's tree is not the freshly built
one. -/
theorem claim6_counterexample :
    (handleMessage (handleMessage c5State ⟨"visual-editor", .updateContent 0 "bye"⟩)
        ⟨"visual-editor", .reorder 99 5⟩).dom
      ≠ buildDOM
          (handleMessage (handleMessage c5State ⟨"visual-editor", .updateContent 0 "bye"⟩)
            ⟨"visual-editor", .reorder 99 5⟩).components
          (handleMessage (handleMessage c5State ⟨"visual-editor", .updateContent 0 "bye"⟩)
            ⟨"visual-editor", .reorder 99 5⟩).language := by
  intro h
  have h2 := congrArg (Option.map VisualElement.text) h
  simp [c5State, c5Store, handleMessage, applyData, updateContentOp, reorderOp,
    buildDOM, findRoot, List.find?, buildElement, childrenOf, mkComp,
    domUpdateFirst, VisualElement.setText, VisualElement.children,
    VisualElement.text, contentText] at h2

/-- Claim C6, amended: `add-component`, `delete-component` and `rebuild`
always leave the state with a tree freshly built from the updated store (old
element instances are discarded); `reorder` does so exactly when the target id
exists, and otherwise changes nothing at all. -/
theorem claim6_amended (s : AppState) :
    (∀ comp, (handleMessage s ⟨"visual-editor", .addComponent comp⟩).dom
        = buildDOM (handleMessage s ⟨"visual-editor", .addComponent comp⟩).components
            s.language)
    ∧ (∀ i, (handleMessage s ⟨"visual-editor", .deleteComponent i⟩).dom
        = buildDOM (handleMessage s ⟨"visual-editor", .deleteComponent i⟩).components
            s.language)
    ∧ (∀ payload, (handleMessage s ⟨"visual-editor", .rebuild payload⟩).dom
        = buildDOM (handleMessage s ⟨"visual-editor", .rebuild payload⟩).components
            s.language)
    ∧ (∀ i o, (s.components.find? (fun c => c.id == i)).isSome →
        (handleMessage s ⟨"visual-editor", .reorder i o⟩).dom
          = buildDOM (handleMessage s ⟨"visual-editor", .reorder i o⟩).components
              s.language)
    ∧ (∀ i o, s.components.find? (fun c => c.id == i) = none →
        handleMessage s ⟨"visual-editor", .reorder i o⟩ = s) := by
  refine ⟨fun comp => rfl, fun i => rfl, fun payload => rfl, ?_, ?_⟩
  · intro i o h
    obtain ⟨c, hc⟩ := Option.isSome_iff_exists.mp h
    simp [handleMessage, applyData, reorderOp, hc]
  · intro i o h
    simp [handleMessage, applyData, reorderOp, h]

/-- Witness for the amended C6: on the concrete one-record state, `reorder` of
the existing root rebuilds, and `reorder` of the absent id 99 is a no-op. -/
theorem claim6_witness :
    (handleMessage c5State ⟨"visual-editor", .reorder 0 3⟩).dom
        = buildDOM (handleMessage c5State ⟨"visual-editor", .reorder 0 3⟩).components
            c5State.language
    ∧ handleMessage c5State ⟨"visual-editor", .reorder 99 5⟩ = c5State :=
  ⟨(claim6_amended c5State).2.2.2.1 0 3 (by decide),
    (claim6_amended c5State).2.2.2.2 99 5 (by decide)⟩

/-- A store whose second record dangles from a nonexistent parent (id 99), so
it is never rendered. -/
def c9Store : List Component :=
  [mkComp 0 none none [("en", "hi")], mkComp 5 (some 99) none]

/-- Counterexample to C9 as stated: the `ezui-ready` payload carries
`componentsData.components.length` (2 on `c9Store`), not the number of
identity-stamped elements in the rendered tree (1: the dangling record is
absent from the tree). -/
theorem claim9_counterexample :
    (readyMessage c9Store "en").elementsCount
      ≠ some (countStamped (buildDOM c9Store "en")) := by
  intro h
  simp [readyMessage, c9Store, countStamped, buildDOM, findRoot, List.find?,
    buildElement, childrenOf, mkComp, nodeCount, collectIds, collectIdsList,
    contentText] at h

/-- Claim C9, amended: in embedded mode the session posts the ready
notification exactly once (no host command ever re-posts it; outside an
iframe it is never posted), and the `elementsCount` it carries is the number
of records in the component store. -/
theorem claim9_ready_once (store : List Component) (lang : String)
    (msgs : List HostMsg) :
    countReady (sessionTrace true store lang msgs) = 1
    ∧ countReady (sessionTrace false store lang msgs) = 0
    ∧ (readyMessage store lang).elementsCount = some store.length := by
  have h0 : countReady (msgs.flatMap handlerTrace) = 0 := by
    simp [handlerTrace, countReady]
  simp only [countReady, sessionTrace, initTrace, List.filter_append,
    List.length_append] at h0 ⊢
  simp [h0, readyMessage]

theorem collectIdsList_eq_flatMap :
    ∀ l : List VisualElement, collectIdsList l = l.flatMap collectIds := by
  intro l
  induction l with
  | nil => rfl
  | cons c cs ih => simp [collectIdsList, ih]

theorem mem_childrenOf {store : List Component} {p : Int} {k : Component} :
    k ∈ childrenOf store p ↔ k ∈ store ∧ k.parentId = some p := by
  simp [childrenOf, List.mem_insertionSort, List.mem_filter]

/-- Distinct records of a store with no duplicate ids have distinct ids. -/
theorem id_inj {store : List Component} (hnd : (store.map (·.id)).Nodup)
    {r1 r2 : Component} (h1 : r1 ∈ store) (h2 : r2 ∈ store)
    (h : r1.id = r2.id) : r1 = r2 :=
  List.inj_on_of_nodup_map hnd h1 h2 h

/-- With unique ids, an id has at most one parent id. -/
theorem pred_unique {store : List Component} (hnd : (store.map (·.id)).Nodup)
    {y z x : Int} (hy : stepR store y x) (hz : stepR store z x) : y = z := by
  obtain ⟨r1, hr1, hp1, hi1⟩ := hy
  obtain ⟨r2, hr2, hp2, hi2⟩ := hz
  have h12 : r1 = r2 := id_inj hnd hr1 hr2 (by rw [hi1, hi2])
  subst h12
  rw [hp1] at hp2
  exact Option.some.inj hp2

/-- Ancestor chains are linearly ordered: two ids that both reach `x` are
comparable under the reflexive-transitive descendant relation (the parent
pointer of each id is unique, so the upward chain from `x` is unique). -/
theorem rtg_linear {store : List Component} (hnd : (store.map (·.id)).Nodup)
    {a x : Int} (h1 : Relation.ReflTransGen (stepR store) a x) :
    ∀ {b : Int}, Relation.ReflTransGen (stepR store) b x →
      Relation.ReflTransGen (stepR store) a b ∨
        Relation.ReflTransGen (stepR store) b a := by
  induction h1 with
  | refl => intro b h2; exact Or.inr h2
  | tail h step ih =>
    intro b h2
    rcases Relation.ReflTransGen.cases_tail h2 with heq | ⟨c, hc, hcx⟩
    · subst heq
      exact Or.inl (Relation.ReflTransGen.tail h step)
    · rw [pred_unique hnd hcx step] at hc
      exact ih hc

theorem step_rtg_eq {store : List Component} (hnd : (store.map (·.id)).Nodup)
    (hacyc : Acyclic store) {p : Int} {k1 k2 : Component}
    (hk1 : k1 ∈ store) (hk2 : k2 ∈ store)
    (hp1 : k1.parentId = some p) (hp2 : k2.parentId = some p)
    (h : Relation.ReflTransGen (stepR store) k1.id k2.id) : k1 = k2 := by
  rcases Relation.reflTransGen_iff_eq_or_transGen.mp h with heq | htg
  · exact id_inj hnd hk1 hk2 heq.symm
  · obtain ⟨y, hy, hstep⟩ := Relation.TransGen.tail'_iff.mp htg
    obtain ⟨r, hr, hpr, hir⟩ := hstep
    have hrk2 : r = k2 := id_inj hnd hr hk2 hir
    rw [hrk2, hp2] at hpr
    have hyp : p = y := Option.some.inj hpr
    subst hyp
    exact absurd (Relation.TransGen.head' ⟨k1, hk1, hp1, rfl⟩ hy) (hacyc p)

/-- Subtrees hanging from two distinct children of the same parent are
disjoint: an id reachable from both forces the children to coincide. -/
theorem same_parent_subtrees_eq {store : List Component}
    (hnd : (store.map (·.id)).Nodup) (hacyc : Acyclic store)
    {p : Int} {k1 k2 : Component} (hk1 : k1 ∈ store) (hk2 : k2 ∈ store)
    (hp1 : k1.parentId = some p) (hp2 : k2.parentId = some p) {x : Int}
    (hx1 : Relation.ReflTransGen (stepR store) k1.id x)
    (hx2 : Relation.ReflTransGen (stepR store) k2.id x) : k1 = k2 := by
  rcases rtg_linear hnd hx1 hx2 with h | h
  · exact step_rtg_eq hnd hacyc hk1 hk2 hp1 hp2 h
  · exact (step_rtg_eq hnd hacyc hk2 hk1 hp2 hp1 h).symm

/-- No id is a strict descendant of the id of a record whose `parentId` is
the null sentinel (when ids are unique). -/
theorem not_desc_to_parentless {store : List Component}
    (hnd : (store.map (·.id)).Nodup) {r : Component} (hr : r ∈ store)
    (hp : r.parentId = none) (y : Int) : ¬ Desc store y r.id := by
  intro h
  obtain ⟨z, _, hstep⟩ := Relation.TransGen.tail'_iff.mp h
  obtain ⟨q, hq, hpq, hiq⟩ := hstep
  have hqr : q = r := id_inj hnd hq hr hiq
  subst hqr
  rw [hp] at hpq
  cases hpq

/-- A fuel bound on the depth reachable from `p`: every chain of parent-child
steps starting at `p` is shorter than `n`. -/
def DepthLt (store : List Component) (p : Int) (n : Nat) : Prop :=
  ∀ l : List Int, List.Chain (stepR store) p l → l.length < n

theorem depthLt_of_acyclic {store : List Component} (hacyc : Acyclic store)
    (p : Int) : DepthLt store p (store.length + 1) := by
  intro l hl
  have hndl := chain_nodup hacyc hl
  have hsub : l ⊆ store.map (·.id) := fun x hx => chain_mem_ids hl x hx
  have hle := (hndl.subperm hsub).length_le
  simp only [List.length_map] at hle
  omega

theorem depthLt_child {store : List Component} {p : Int} {n : Nat}
    (h : DepthLt store p (n + 1)) {k : Component} (hk : k ∈ store)
    (hp : k.parentId = some p) : DepthLt store k.id n := by
  intro l hl
  have hch : List.Chain (stepR store) p (k.id :: l) :=
    List.chain_cons.mpr ⟨⟨k, hk, hp, rfl⟩, hl⟩
  have := h _ hch
  simp only [List.length_cons] at this
  omega

/-- Membership of the stamped ids of a built subtree: exactly the root's own
id and its transitive descendants, provided the fuel dominates the depth. -/
theorem mem_collectIds_build {store : List Component} {lang : String} :
    ∀ {n : Nat} {comp : Component} {t : VisualElement},
      DepthLt store comp.id n →
      buildElement store lang n comp = some t →
      ∀ x : Int, x ∈ collectIds t ↔ (x = comp.id ∨ Desc store comp.id x) := by
  intro n
  induction n with
  | zero => intro comp t _ ht; simp [buildElement] at ht
  | succ n ih =>
    intro comp t hdep ht x
    simp only [buildElement] at ht
    cases ht
    have hkids : (if (childrenOf store comp.id).isEmpty then []
        else (childrenOf store comp.id).filterMap (buildElement store lang n))
        = (childrenOf store comp.id).filterMap (buildElement store lang n) := by
      by_cases h : (childrenOf store comp.id).isEmpty
      · rw [if_pos h, List.isEmpty_iff.mp h]
        rfl
      · rw [if_neg h]
    rw [collectIds, collectIdsList_eq_flatMap, hkids]
    simp only [List.mem_cons, List.mem_flatMap, List.mem_filterMap]
    constructor
    · rintro (rfl | ⟨tk, ⟨k, hk, hbk⟩, hx⟩)
      · exact Or.inl rfl
      · obtain ⟨hkst, hkp⟩ := mem_childrenOf.mp hk
        have hstep : stepR store comp.id k.id := ⟨k, hkst, hkp, rfl⟩
        have hdepk := depthLt_child hdep hkst hkp
        rcases (ih hdepk hbk x).mp hx with rfl | hdesc
        · exact Or.inr (Relation.TransGen.single hstep)
        · exact Or.inr (Relation.TransGen.head hstep hdesc)
    · rintro (rfl | hdesc)
      · exact Or.inl rfl
      · obtain ⟨m, hm, hrtg⟩ := Relation.TransGen.head'_iff.mp hdesc
        obtain ⟨k, hkst, hkp, hkid⟩ := hm
        cases n with
        | zero =>
          exfalso
          have hch : List.Chain (stepR store) comp.id [m] := by
            rw [List.chain_cons]
            exact ⟨⟨k, hkst, hkp, hkid⟩, List.Chain.nil⟩
          have := hdep _ hch
          simp at this
        | succ n' =>
          refine Or.inr ⟨_, ⟨k, mem_childrenOf.mpr ⟨hkst, hkp⟩, rfl⟩, ?_⟩
          have hdepk := depthLt_child hdep hkst hkp
          rw [ih hdepk rfl x]
          rcases Relation.reflTransGen_iff_eq_or_transGen.mp hrtg with heq | htg
          · exact Or.inl (heq.trans hkid.symm)
          · exact Or.inr (hkid ▸ htg)

/-- The stamped ids of a built subtree are distinct when the store has unique
ids and no parent cycle. -/
theorem nodup_collectIds_build {store : List Component} {lang : String}
    (hnd : (store.map (·.id)).Nodup) (hacyc : Acyclic store) :
    ∀ {n : Nat} {comp : Component} {t : VisualElement},
      DepthLt store comp.id n →
      buildElement store lang n comp = some t →
      (collectIds t).Nodup := by
  intro n
  induction n with
  | zero => intro comp t _ ht; simp [buildElement] at ht
  | succ n ih =>
    intro comp t hdep ht
    simp only [buildElement] at ht
    cases ht
    have hkids : (if (childrenOf store comp.id).isEmpty then []
        else (childrenOf store comp.id).filterMap (buildElement store lang n))
        = (childrenOf store comp.id).filterMap (buildElement store lang n) := by
      by_cases h : (childrenOf store comp.id).isEmpty
      · rw [if_pos h, List.isEmpty_iff.mp h]
        rfl
      · rw [if_neg h]
    rw [collectIds, collectIdsList_eq_flatMap, hkids]
    refine List.nodup_cons.mpr ⟨?_, ?_⟩
    · intro hmem
      obtain ⟨tk, htk, hx⟩ := List.mem_flatMap.mp hmem
      obtain ⟨k, hk, hbk⟩ := List.mem_filterMap.mp htk
      obtain ⟨hkst, hkp⟩ := mem_childrenOf.mp hk
      have hstep : stepR store comp.id k.id := ⟨k, hkst, hkp, rfl⟩
      have hdepk := depthLt_child hdep hkst hkp
      rcases (mem_collectIds_build hdepk hbk comp.id).mp hx with heq | hdesc
      · rw [heq] at hstep
        exact hacyc k.id (Relation.TransGen.single hstep)
      · exact hacyc comp.id (Relation.TransGen.head hstep hdesc)
    · rw [List.nodup_flatMap]
      constructor
      · intro tk htk
        obtain ⟨k, hk, hbk⟩ := List.mem_filterMap.mp htk
        obtain ⟨hkst, hkp⟩ := mem_childrenOf.mp hk
        exact ih (depthLt_child hdep hkst hkp) hbk
      · have hchn : (childrenOf store comp.id).Nodup := by
          refine (List.perm_insertionSort sibLE _).symm.nodup ?_
          exact (hnd.of_map _).filter _
        have hpair : (childrenOf store comp.id).Pairwise
            (fun k1 k2 => k1 ∈ store ∧ k2 ∈ store ∧
              k1.parentId = some comp.id ∧ k2.parentId = some comp.id ∧ k1 ≠ k2) := by
          refine hchn.imp_of_mem ?_
          intro k1 k2 h1 h2 hne
          obtain ⟨h1s, h1p⟩ := mem_childrenOf.mp h1
          obtain ⟨h2s, h2p⟩ := mem_childrenOf.mp h2
          exact ⟨h1s, h2s, h1p, h2p, hne⟩
        refine hpair.filterMap (buildElement store lang n) ?_
        rintro k1 k2 ⟨h1s, h2s, h1p, h2p, hne⟩ t1 ht1 t2 ht2
        intro x hx1 hx2
        have hm1 := (mem_collectIds_build (depthLt_child hdep h1s h1p)
          ht1 x).mp hx1
        have hm2 := (mem_collectIds_build (depthLt_child hdep h2s h2p)
          ht2 x).mp hx2
        have hr1 : Relation.ReflTransGen (stepR store) k1.id x := by
          rcases hm1 with rfl | hd
          · exact Relation.ReflTransGen.refl
          · exact hd.to_reflTransGen
        have hr2 : Relation.ReflTransGen (stepR store) k2.id x := by
          rcases hm2 with rfl | hd
          · exact Relation.ReflTransGen.refl
          · exact hd.to_reflTransGen
        exact hne (same_parent_subtrees_eq hnd hacyc h1s h2s h1p h2p hr1 hr2)

/-- Claim C3: for every valid store (unique ids per the data-model invariant,
exactly one record with the null parent sentinel, no `parentId` cycles, every
record reachable from the root), `buildDOM` produces a tree whose node count
equals the record count, and the identity stamps of its nodes are pairwise
distinct and are exactly the records' ids. -/
theorem claim3_buildDOM_node_count (store : List Component) (lang : String)
    (hnd : (store.map (·.id)).Nodup) (hacyc : Acyclic store)
    (R : Component) (hR : findRoot store = some R)
    (_huniq : ∀ r ∈ store, r.parentId = none → r = R)
    (hreach : ∀ r ∈ store, r.id = R.id ∨ Desc store R.id r.id) :
    ∃ t, buildDOM store lang = some t
      ∧ nodeCount t = store.length
      ∧ (collectIds t).Nodup
      ∧ (collectIds t).Perm (store.map (·.id)) := by
  have hdep := depthLt_of_acyclic hacyc R.id
  obtain ⟨t, ht⟩ : ∃ t, buildElement store lang (store.length + 1) R = some t :=
    ⟨_, rfl⟩
  have hmem := mem_collectIds_build hdep ht
  have hnodup := nodup_collectIds_build hnd hacyc hdep ht
  have hsub1 : collectIds t ⊆ store.map (·.id) := by
    intro x hx
    rcases (hmem x).mp hx with rfl | hdesc
    · exact List.mem_map.mpr ⟨R, List.mem_of_find?_eq_some hR, rfl⟩
    · obtain ⟨y, _, hstep⟩ := Relation.TransGen.tail'_iff.mp hdesc
      obtain ⟨r, hr, _, hir⟩ := hstep
      exact List.mem_map.mpr ⟨r, hr, hir⟩
  have hsub2 : store.map (·.id) ⊆ collectIds t := by
    intro x hx
    obtain ⟨r, hr, rfl⟩ := List.mem_map.mp hx
    exact (hmem r.id).mpr (hreach r hr)
  have hperm : (collectIds t).Perm (store.map (·.id)) :=
    (hnodup.subperm hsub1).antisymm (hnd.subperm hsub2)
  refine ⟨t, ?_, ?_, hnodup, hperm⟩
  · simp [buildDOM, hR, ht]
  · have := hperm.length_eq
    simpa [nodeCount] using this

/-- Witness for C3 on the five-record example store root→A→B→C, root→D. -/
theorem claim3_witness :
    ∃ t, buildDOM exStore "en" = some t ∧ nodeCount t = 5
      ∧ (collectIds t).Nodup ∧ (collectIds t).Perm (exStore.map (·.id)) := by
  have hax : Acyclic exStore := acyclic_of_rank exStore (fun x => x.toNat) (by decide)
  have hreach : ∀ r ∈ exStore,
      r.id = (mkComp 0 none none).id ∨ Desc exStore (mkComp 0 none none).id r.id := by
    intro r hr
    rw [desc_iff_mem_findChildrenFuel hax]
    fin_cases hr <;> decide
  obtain ⟨t, h1, h2, h3, h4⟩ := claim3_buildDOM_node_count exStore "en" (by decide)
    hax (mkComp 0 none none) (by decide) (by decide) hreach
  exact ⟨t, h1, by simpa [exStore] using h2, h3, h4⟩

/-- Claim C10: when more than one record carries the null parent sentinel,
`buildDOM` renders only the tree rooted at the first such record in store
order, with no error raised: the build still succeeds, and the id of every
other null-parent record, as well as every transitive descendant of such a
record, is absent from the rendered tree. -/
theorem claim10_first_root_wins (store : List Component) (lang : String)
    (hnd : (store.map (·.id)).Nodup) (hacyc : Acyclic store)
    (R : Component) (hR : findRoot store = some R)
    (r2 : Component) (h2 : r2 ∈ store) (h2p : r2.parentId = none) (hne : r2 ≠ R) :
    ∃ t, buildDOM store lang = some t
      ∧ buildElement store lang (store.length + 1) R = some t
      ∧ (∃ pre post, store = pre ++ R :: post ∧ ∀ s ∈ pre, s.parentId ≠ none)
      ∧ r2.id ∉ collectIds t
      ∧ (∀ x : Int, Desc store r2.id x → x ∉ collectIds t) := by
  have hdep := depthLt_of_acyclic hacyc R.id
  have hRmem : R ∈ store := List.mem_of_find?_eq_some hR
  have hRp : R.parentId = none := by
    have := List.find?_some hR
    simpa using this
  obtain ⟨t, ht⟩ : ∃ t, buildElement store lang (store.length + 1) R = some t :=
    ⟨_, rfl⟩
  have hmem := mem_collectIds_build hdep ht
  refine ⟨t, ?_, ht, ?_, ?_, ?_⟩
  · simp [buildDOM, hR, ht]
  · obtain ⟨hp, as, bs, hsplit, hprev⟩ := List.find?_eq_some.mp hR
    refine ⟨as, bs, hsplit, ?_⟩
    intro s hs hcontra
    have := hprev s hs
    simp [hcontra] at this
  · intro hx
    rcases (hmem r2.id).mp hx with heq | hdesc
    · exact hne (id_inj hnd h2 hRmem heq)
    · exact not_desc_to_parentless hnd h2 h2p R.id hdesc
  · intro x hdx hx
    rcases (hmem x).mp hx with heq | hdesc
    · subst heq
      exact not_desc_to_parentless hnd hRmem hRp r2.id hdx
    · have hr1 : Relation.ReflTransGen (stepR store) R.id x := hdesc.to_reflTransGen
      have hr2x : Relation.ReflTransGen (stepR store) r2.id x := hdx.to_reflTransGen
      rcases rtg_linear hnd hr1 hr2x with h | h
      · rcases Relation.reflTransGen_iff_eq_or_transGen.mp h with heq2 | htg
        · exact hne (id_inj hnd h2 hRmem heq2)
        · exact not_desc_to_parentless hnd h2 h2p R.id htg
      · rcases Relation.reflTransGen_iff_eq_or_transGen.mp h with heq2 | htg
        · exact hne (id_inj hnd h2 hRmem heq2.symm)
        · exact not_desc_to_parentless hnd hRmem hRp r2.id htg

/-- A store with two null-parent roots (ids 0 and 7) and a child (id 8) of
the second root. -/
def c10Store : List Component :=
  [mkComp 0 none none [("en", "hi")], mkComp 7 none none, mkComp 8 (some 7) none]

/-- Witness for C10: on the two-root store, the tree builds without error and
contains neither the second root (id 7) nor its child (id 8). -/
theorem claim10_witness :
    ∃ t, buildDOM c10Store "en" = some t ∧ (7 : Int) ∉ collectIds t
      ∧ (8 : Int) ∉ collectIds t := by
  have hax : Acyclic c10Store := acyclic_of_rank c10Store (fun x => x.toNat) (by decide)
  obtain ⟨t, h1, _, _, h4, h5⟩ := claim10_first_root_wins c10Store "en" (by decide)
    hax (mkComp 0 none none [("en", "hi")]) (by decide)
    (mkComp 7 none none) (by decide) (by decide) (by decide)
  refine ⟨t, h1, by simpa using h4, h5 8 ?_⟩
  rw [desc_iff_mem_findChildrenFuel hax]
  decide

end EzuiClient
